import Mathlib

/-!
Shallow embedding of the Hangman CLI game
(`src/hangman.ts`, the fully typed variant, and `src/index.ts`, the
letter-only variant) together with proofs of the specification claims.

Conventions of the embedding:
* TypeScript's module-level mutable variables (`hiddenWord`, `board`,
  `livesRemaining`, `guessesMade`) become fields of an explicit
  `GameState` record that every operation takes and returns.
* `LowercaseLetter` is a union of 26 one-character string literals, so a
  board slot's letter is a single character; we embed it as `Char`.
* `number` is embedded as `Int` (the decrement `livesRemaining -= 1` is
  unguarded and could in principle go negative).
* `console.log` branches that report a hit ("Bullseye!") versus a miss
  are embedded as a returned `GuessOutcome` value.
* Terminal input (`prompt`) is embedded as a list of input lines that the
  recursive prompt/game loop consumes one line per prompt.
-/

namespace Hangman

/-- Outcome reported for a single processed guess: `Hit` corresponds to the
"Bullseye!" branch, `Miss` to the "It's not there..." / "That's not the
word..." branches. -/
inductive GuessOutcome where
  | Hit : GuessOutcome
  | Miss : GuessOutcome
deriving DecidableEq, Repr

/-- Terminal outcome printed after the loop: "Bad luck, you're out of
lives!" versus "Congrats! You won!". -/
inductive Outcome where
  | Won : Outcome
  | Lost : Outcome
deriving DecidableEq, Repr

/-- `interface LetterSlot { letter: LowercaseLetter; isRevealed: boolean }`.
A `LowercaseLetter` is a one-character string, embedded as `Char`. -/
structure LetterSlot where
  letter : Char
  isRevealed : Bool
deriving DecidableEq, Repr

/-- `type HangmanBoard = LetterSlot[]`. -/
def HangmanBoard := List LetterSlot

/-- The module-level mutable state of `hangman.ts`: `hiddenWord`, `board`,
`livesRemaining` and `guessesMade`. -/
structure GameState where
  hiddenWord : String
  board : List LetterSlot
  livesRemaining : Int
  guessesMade : List String
deriving DecidableEq, Repr

/-- `boardContainsLetter`: `board.some((letterSlot) => letterSlot.letter ===
letterToCheck)`. -/
def boardContainsLetter (board : List LetterSlot) (letterToCheck : Char) : Bool :=
  board.any (fun letterSlot => letterSlot.letter == letterToCheck)

/-- `gameIsOngoing`: lives remain and the board is not wholly revealed. -/
def gameIsOngoing (st : GameState) : Bool :=
  let isWholeBoardRevealed := st.board.all (fun letterSlot => letterSlot.isRevealed)
  decide (0 < st.livesRemaining) && !isWholeBoardRevealed

/-- `isALowercaseLetter`: `str.length === 1 && !!str.match(/[a-z]/)`.
The regex is unanchored, so it tests whether some character of the string
lies between `a` and `z`; with the length-1 conjunct this is exactly "the
single character is a lowercase Latin letter". -/
def isALowercaseLetter (str : String) : Bool :=
  str.length == 1 && str.data.any (fun c => decide ('a' ≤ c) && decide (c ≤ 'z'))

/-- `revealLetter`: set `isRevealed` on every slot whose letter matches
(there might be multiple), leaving all other slots as they are. -/
def revealLetter (letterToReveal : Char) (board : List LetterSlot) : List LetterSlot :=
  board.map (fun letterSlot =>
    if letterSlot.letter == letterToReveal then
      { letterSlot with isRevealed := true }
    else
      letterSlot)

/-- `revealWholeBoard`: set `isRevealed` on every slot. -/
def revealWholeBoard (board : List LetterSlot) : List LetterSlot :=
  board.map (fun letterSlot => { letterSlot with isRevealed := true })

/-- `storeGuess`: push the guess onto `guessesMade`, then sort the array
(JavaScript's default string sort). -/
def storeGuess (guess : String) (st : GameState) : GameState :=
  { st with guessesMade := (st.guessesMade ++ [guess]).mergeSort (fun a b => decide (a ≤ b)) }

/-- `processGuessedLetter`: reveal the letter if present, otherwise lose a
life. -/
def processGuessedLetter (letter : Char) (st : GameState) : GameState × GuessOutcome :=
  if boardContainsLetter st.board letter then
    ({ st with board := revealLetter letter st.board }, GuessOutcome.Hit)
  else
    ({ st with livesRemaining := st.livesRemaining - 1 }, GuessOutcome.Miss)

/-- `processGuessedWord`: reveal the whole board if the word is the hidden
word, otherwise lose a life. -/
def processGuessedWord (word : String) (st : GameState) : GameState × GuessOutcome :=
  if word == st.hiddenWord then
    ({ st with board := revealWholeBoard st.board }, GuessOutcome.Hit)
  else
    ({ st with livesRemaining := st.livesRemaining - 1 }, GuessOutcome.Miss)

/-- `handleGuess`: store the guess unconditionally, then dispatch on
`isALowercaseLetter`.  When the type guard succeeds the guess has exactly
one character, which is passed to `processGuessedLetter`; the second match
arm is unreachable. -/
def handleGuess (guess : String) (st : GameState) : GameState × GuessOutcome :=
  if isALowercaseLetter guess then
    match guess.data with
    | [c] => processGuessedLetter c (storeGuess guess st)
    | _ => processGuessedWord guess (storeGuess guess st)
  else
    processGuessedWord guess (storeGuess guess st)

/-- `wordToBoard`: one unrevealed slot per character of the word. -/
def wordToBoard (word : String) : List LetterSlot :=
  word.data.map (fun char => { letter := char, isRevealed := false })

/-- `takeAndHandleGuess`: prompt for a guess (consume one input line); if it
was already guessed, re-prompt recursively without touching the state,
otherwise handle it.  Embedded over the list of pending input lines; an
exhausted input stream leaves the state unchanged (the real program would
block on the prompt). -/
def takeAndHandleGuess : List String → GameState → GameState
  | [], st => st
  | guess :: rest, st =>
    if st.guessesMade.contains guess then
      takeAndHandleGuess rest st
    else
      (handleGuess guess st).1

/-- The `while (gameIsOngoing()) { playRound(); }` loop of `playGame`,
merged with the re-prompt recursion of `takeAndHandleGuess`: each step
consumes one input line; a line already in `guessesMade` is skipped without
mutating the state (the duplicate re-prompt), any other line is handled by
`handleGuess`.  Re-checking `gameIsOngoing` before each line agrees with
the source, where it is checked once per round, because the duplicate
re-prompts in between never mutate the state. -/
def runGame : List String → GameState → GameState
  | [], st => st
  | guess :: rest, st =>
    if gameIsOngoing st then
      if st.guessesMade.contains guess then
        runGame rest st
      else
        runGame rest (handleGuess guess st).1
    else st

/-- Like `runGame` but returning every state the loop passes through, in
order, starting from the initial one. -/
def runTrace : List String → GameState → List GameState
  | [], st => [st]
  | guess :: rest, st =>
    if gameIsOngoing st then
      if st.guessesMade.contains guess then
        st :: runTrace rest st
      else
        st :: runTrace rest (handleGuess guess st).1
    else [st]

/-- The final report of `playGame`: out of lives means a loss, otherwise a
win. -/
def gameOutcome (st : GameState) : Outcome :=
  if st.livesRemaining == 0 then Outcome.Lost else Outcome.Won

end Hangman

namespace Index

/-!
Embedding of `src/index.ts`, the earlier untyped variant: slots carry an
arbitrary `string` letter, `isRevealed` is an optional field (absent ⇒
falsy, embedded as `false`), there is no word-guess path, and the starting
lives are 5 with the fixed word "apple".
-/

/-- `interface LetterSlot { letter: string; isRevealed?: boolean }`; the
optional flag is embedded as a `Bool` that is `false` while the field is
absent. -/
structure LetterSlot where
  letter : String
  isRevealed : Bool
deriving DecidableEq, Repr

/-- The module-level mutable state of `index.ts`: `board`, `livesRemaining`
and `guessesMade`. -/
structure GameState where
  board : List LetterSlot
  livesRemaining : Int
  guessesMade : List String
deriving DecidableEq, Repr

/-- `boardContainsLetter`: string comparison of each slot's letter against
the guess. -/
def boardContainsLetter (board : List LetterSlot) (letterToCheck : String) : Bool :=
  board.any (fun letterSlot => letterSlot.letter == letterToCheck)

/-- `gameIsOngoing`: `livesRemaining > 0 && board.some((s) => !s.isRevealed)`. -/
def gameIsOngoing (st : GameState) : Bool :=
  decide (0 < st.livesRemaining) && st.board.any (fun letterSlot => !letterSlot.isRevealed)

/-- `revealLetter`: set `isRevealed` on every slot whose letter matches. -/
def revealLetter (letterToReveal : String) (board : List LetterSlot) : List LetterSlot :=
  board.map (fun letterSlot =>
    if letterSlot.letter == letterToReveal then
      { letterSlot with isRevealed := true }
    else
      letterSlot)

/-- `storeGuess`: push then sort. -/
def storeGuess (guess : String) (st : GameState) : GameState :=
  { st with guessesMade := (st.guessesMade ++ [guess]).mergeSort (fun a b => decide (a ≤ b)) }

/-- `handleGuess` of `index.ts`: store the guess, then either reveal the
matching letters or lose a life — every guess, whatever its length, is
compared letter-by-slot; there is no word path. -/
def handleGuess (guess : String) (st : GameState) : GameState :=
  if boardContainsLetter st.board guess then
    { storeGuess guess st with board := revealLetter guess st.board }
  else
    { storeGuess guess st with livesRemaining := st.livesRemaining - 1 }

/-- Board construction in `playGame`:
`word.split("").map((char) => ({ letter: char }))` — one slot per
character, the letter being the one-character string, `isRevealed` absent
(falsy). -/
def mkBoard (word : String) : List LetterSlot :=
  word.data.map (fun char => { letter := String.mk [char], isRevealed := false })

end Index

/-! ### Helper lemmas -/

namespace Hangman

/-- A string passes the `isALowercaseLetter` type guard exactly when its
character list is a single character between `a` and `z`. -/
theorem isALowercaseLetter_iff (g : String) :
    isALowercaseLetter g = true ↔ ∃ c, g.data = [c] ∧ 'a' ≤ c ∧ c ≤ 'z' := by
  unfold isALowercaseLetter
  simp only [Bool.and_eq_true, beq_iff_eq, List.any_eq_true, decide_eq_true_eq]
  constructor
  · rintro ⟨hlen, c, hc, h1, h2⟩
    have hd : g.data.length = 1 := hlen
    obtain ⟨c', hc'⟩ := List.length_eq_one.mp hd
    rw [hc'] at hc
    rcases List.mem_singleton.mp hc with rfl
    exact ⟨c, hc', h1, h2⟩
  · rintro ⟨c, hd, h1, h2⟩
    refine ⟨?_, c, ?_, h1, h2⟩
    · show g.data.length = 1
      simp [hd]
    · rw [hd]; exact List.mem_singleton.mpr rfl

/-- Storing a guess touches only `guessesMade`. -/
theorem storeGuess_board (g : String) (st : GameState) :
    (storeGuess g st).board = st.board := rfl

/-- Storing a guess touches only `guessesMade`. -/
theorem storeGuess_lives (g : String) (st : GameState) :
    (storeGuess g st).livesRemaining = st.livesRemaining := rfl

/-- Storing a guess touches only `guessesMade`. -/
theorem storeGuess_hiddenWord (g : String) (st : GameState) :
    (storeGuess g st).hiddenWord = st.hiddenWord := rfl

/-- When the guess is a single lowercase letter, `handleGuess` routes it to
`processGuessedLetter` after storing it. -/
theorem handleGuess_of_letter (g : String) (c : Char) (st : GameState)
    (hd : g.data = [c]) (h1 : 'a' ≤ c) (h2 : c ≤ 'z') :
    handleGuess g st = processGuessedLetter c (storeGuess g st) := by
  have hl : isALowercaseLetter g = true :=
    (isALowercaseLetter_iff g).mpr ⟨c, hd, h1, h2⟩
  unfold handleGuess
  rw [if_pos hl, hd]

/-- When the guess is not a single lowercase letter, `handleGuess` routes it
to `processGuessedWord` after storing it. -/
theorem handleGuess_of_word (g : String) (st : GameState)
    (h : ¬ ∃ c, g.data = [c] ∧ 'a' ≤ c ∧ c ≤ 'z') :
    handleGuess g st = processGuessedWord g (storeGuess g st) := by
  have hl : isALowercaseLetter g = false := by
    cases hb : isALowercaseLetter g
    · rfl
    · exact absurd ((isALowercaseLetter_iff g).mp hb) h
  unfold handleGuess
  rw [hl]
  simp

/-- On a freshly built board, `boardContainsLetter` asks whether the
character occurs in the word. -/
theorem boardContainsLetter_wordToBoard (w : String) (c : Char) :
    boardContainsLetter (wordToBoard w) c = w.data.any (fun x => x == c) := by
  unfold boardContainsLetter wordToBoard
  induction w.data with
  | nil => rfl
  | cons x xs ih => simp only [List.map_cons, List.any_cons, ih]

end Hangman

/-! ### Claim theorems -/

/-- C7: `gameIsOngoing` (in both the `hangman.ts` and the `index.ts`
variant) returns `true` iff `livesRemaining > 0` and at least one slot is
unrevealed. -/
theorem gameIsOngoing_iff (st : Hangman.GameState) (ist : Index.GameState) :
    (Hangman.gameIsOngoing st = true ↔
      0 < st.livesRemaining ∧ ∃ s ∈ st.board, s.isRevealed = false) ∧
    (Index.gameIsOngoing ist = true ↔
      0 < ist.livesRemaining ∧ ∃ s ∈ ist.board, s.isRevealed = false) := by
  constructor
  · unfold Hangman.gameIsOngoing
    simp [List.all_eq_true, List.any_eq_true]
  · unfold Index.gameIsOngoing
    simp [List.any_eq_true]

/-- C8: for every secret word, game setup builds a board with exactly one
slot per character of the word, in order (the slot's letter is the word's
character at that position), with every slot unrevealed.  Stated for
`wordToBoard` of `hangman.ts` and for the inline board construction of
`index.ts` (where each slot's letter is the one-character string). -/
theorem wordToBoard_builds_board (w : String) (i : Nat) :
    (Hangman.wordToBoard w).length = w.length ∧
    ((Hangman.wordToBoard w)[i]?).map Hangman.LetterSlot.letter = w.data[i]? ∧
    ((Hangman.wordToBoard w)[i]?).map Hangman.LetterSlot.isRevealed
      = (w.data[i]?).map (fun _ => false) ∧
    (Index.mkBoard w).length = w.length ∧
    ((Index.mkBoard w)[i]?).map Index.LetterSlot.letter
      = (w.data[i]?).map (fun c => String.mk [c]) ∧
    ((Index.mkBoard w)[i]?).map Index.LetterSlot.isRevealed
      = (w.data[i]?).map (fun _ => false) := by
  unfold Hangman.wordToBoard Index.mkBoard
  refine ⟨?_, ?_, ?_, ?_, ?_, ?_⟩
  · rw [List.length_map]; rfl
  · rw [List.getElem?_map, Option.map_map]
    cases w.data[i]? <;> rfl
  · rw [List.getElem?_map, Option.map_map]
    cases w.data[i]? <;> rfl
  · rw [List.length_map]; rfl
  · rw [List.getElem?_map, Option.map_map]
    cases w.data[i]? <;> rfl
  · rw [List.getElem?_map, Option.map_map]
    cases w.data[i]? <;> rfl

/-- A concrete session state for evaluating theorems: the fresh game with
secret "cat" and the 10 starting lives of `hangman.ts`. -/
def stCat : Hangman.GameState :=
  { hiddenWord := "cat", board := Hangman.wordToBoard "cat",
    livesRemaining := 10, guessesMade := [] }

/-- C1: a letter guess that occurs in the secret reveals exactly the slots
holding that letter (all occurrences; every other slot keeps its letter and
its reveal flag), reports `Hit`, and leaves `livesRemaining` unchanged. -/
theorem letter_hit_reveals_all_occurrences (c : Char) (st : Hangman.GameState) (i : Nat)
    (h1 : 'a' ≤ c) (h2 : c ≤ 'z')
    (hb : st.board = Hangman.wordToBoard st.hiddenWord)
    (hmem : c ∈ st.hiddenWord.data) :
    (Hangman.handleGuess (String.mk [c]) st).2 = Hangman.GuessOutcome.Hit ∧
    (Hangman.handleGuess (String.mk [c]) st).1.livesRemaining = st.livesRemaining ∧
    (Hangman.handleGuess (String.mk [c]) st).1.board.length = st.board.length ∧
    ((Hangman.handleGuess (String.mk [c]) st).1.board[i]?).map Hangman.LetterSlot.letter
      = (st.board[i]?).map Hangman.LetterSlot.letter ∧
    ((Hangman.handleGuess (String.mk [c]) st).1.board[i]?).map Hangman.LetterSlot.isRevealed
      = (st.board[i]?).map (fun s => if s.letter = c then true else s.isRevealed) := by
  rw [Hangman.handleGuess_of_letter _ c st rfl h1 h2]
  have hcontains :
      Hangman.boardContainsLetter (Hangman.storeGuess (String.mk [c]) st).board c = true := by
    rw [Hangman.storeGuess_board, hb, Hangman.boardContainsLetter_wordToBoard]
    simp only [List.any_eq_true, beq_iff_eq]
    exact ⟨c, hmem, rfl⟩
  unfold Hangman.processGuessedLetter
  rw [if_pos hcontains]
  refine ⟨rfl, rfl, ?_, ?_, ?_⟩
  · simp [Hangman.revealLetter, Hangman.storeGuess_board]
  · show ((Hangman.revealLetter c st.board)[i]?).map Hangman.LetterSlot.letter
      = (st.board[i]?).map Hangman.LetterSlot.letter
    unfold Hangman.revealLetter
    rw [List.getElem?_map, Option.map_map]
    cases st.board[i]? with
    | none => rfl
    | some s =>
      show some (Hangman.LetterSlot.letter _) = some s.letter
      by_cases h : s.letter == c <;> simp [h]
  · show ((Hangman.revealLetter c st.board)[i]?).map Hangman.LetterSlot.isRevealed
      = (st.board[i]?).map (fun s => if s.letter = c then true else s.isRevealed)
    unfold Hangman.revealLetter
    rw [List.getElem?_map, Option.map_map]
    cases st.board[i]? with
    | none => rfl
    | some s =>
      show some (Hangman.LetterSlot.isRevealed _) = some _
      by_cases h : s.letter = c <;> simp [h]

/-- Witness for C1: guessing "a" in the fresh "cat" game. -/
theorem letter_hit_reveals_all_occurrences_witness :
    ('a' ≤ 'a' ∧ 'a' ≤ 'z' ∧ stCat.board = Hangman.wordToBoard stCat.hiddenWord ∧
      'a' ∈ stCat.hiddenWord.data) ∧
    ((Hangman.handleGuess (String.mk ['a']) stCat).2 = Hangman.GuessOutcome.Hit ∧
    (Hangman.handleGuess (String.mk ['a']) stCat).1.livesRemaining = stCat.livesRemaining ∧
    (Hangman.handleGuess (String.mk ['a']) stCat).1.board.length = stCat.board.length ∧
    ((Hangman.handleGuess (String.mk ['a']) stCat).1.board[1]?).map Hangman.LetterSlot.letter
      = (stCat.board[1]?).map Hangman.LetterSlot.letter ∧
    ((Hangman.handleGuess (String.mk ['a']) stCat).1.board[1]?).map Hangman.LetterSlot.isRevealed
      = (stCat.board[1]?).map (fun s => if s.letter = 'a' then true else s.isRevealed)) :=
  ⟨⟨by decide, by decide, rfl, by decide⟩,
    letter_hit_reveals_all_occurrences 'a' stCat 1 (by decide) (by decide) rfl (by decide)⟩

/-- A mid-session state of the game on secret "cat": the letter "a" has been
guessed and revealed ("_ a _"), matching the board invariant that the slot
letters spell the secret while the reveal flags are arbitrary. -/
def stCatMid : Hangman.GameState :=
  { hiddenWord := "cat",
    board := [{ letter := 'c', isRevealed := false },
              { letter := 'a', isRevealed := true },
              { letter := 't', isRevealed := false }],
    livesRemaining := 3, guessesMade := ["a"] }

/-- C2: a letter guess absent from the secret costs exactly one life,
reports `Miss`, and leaves the whole board (every slot, both fields)
unchanged — in any session state whose slot letters spell the secret,
whatever is already revealed. -/
theorem letter_miss_decrements_lives (c : Char) (st : Hangman.GameState)
    (h1 : 'a' ≤ c) (h2 : c ≤ 'z')
    (hb : st.board.map Hangman.LetterSlot.letter = st.hiddenWord.data)
    (hmem : c ∉ st.hiddenWord.data) :
    (Hangman.handleGuess (String.mk [c]) st).2 = Hangman.GuessOutcome.Miss ∧
    (Hangman.handleGuess (String.mk [c]) st).1.livesRemaining = st.livesRemaining - 1 ∧
    (Hangman.handleGuess (String.mk [c]) st).1.board = st.board := by
  rw [Hangman.handleGuess_of_letter _ c st rfl h1 h2]
  have habsent :
      Hangman.boardContainsLetter (Hangman.storeGuess (String.mk [c]) st).board c = false := by
    rw [Hangman.storeGuess_board]
    unfold Hangman.boardContainsLetter
    simp only [List.any_eq_false, beq_iff_eq]
    intro s hs hsc
    apply hmem
    rw [← hb]
    exact List.mem_map.mpr ⟨s, hs, hsc⟩
  unfold Hangman.processGuessedLetter
  rw [habsent]
  exact ⟨rfl, rfl, rfl⟩

/-- Witness for C2: guessing "z" against the partially revealed "_ a _"
board with 3 lives (the spec's scenario: Miss, lives drop to 2, board
untouched). -/
theorem letter_miss_decrements_lives_witness :
    ('a' ≤ 'z' ∧ 'z' ≤ 'z' ∧
      stCatMid.board.map Hangman.LetterSlot.letter = stCatMid.hiddenWord.data ∧
      'z' ∉ stCatMid.hiddenWord.data) ∧
    ((Hangman.handleGuess (String.mk ['z']) stCatMid).2 = Hangman.GuessOutcome.Miss ∧
    (Hangman.handleGuess (String.mk ['z']) stCatMid).1.livesRemaining
      = stCatMid.livesRemaining - 1 ∧
    (Hangman.handleGuess (String.mk ['z']) stCatMid).1.board = stCatMid.board) :=
  ⟨⟨by decide, by decide, by decide, by decide⟩,
    letter_miss_decrements_lives 'z' stCatMid (by decide) (by decide) (by decide) (by decide)⟩

/-- `revealWholeBoard` leaves every slot revealed. -/
theorem revealWholeBoard_all (b : List Hangman.LetterSlot) :
    (Hangman.revealWholeBoard b).all (fun s => s.isRevealed) = true := by
  unfold Hangman.revealWholeBoard
  induction b with
  | nil => rfl
  | cons x xs ih => simp [ih]

/-- C3: guessing the full secret reveals every slot and reports `Hit`; lives
are untouched, the loop condition goes false, and with lives still positive
the final report is a win.  Holds in any session state whose slot letters
spell the secret, whatever is already revealed.  (Even a one-letter secret,
which routes through the letter path, ends fully revealed.) -/
theorem word_guess_equal_secret_wins (st : Hangman.GameState)
    (hb : st.board.map Hangman.LetterSlot.letter = st.hiddenWord.data) :
    (Hangman.handleGuess st.hiddenWord st).2 = Hangman.GuessOutcome.Hit ∧
    (Hangman.handleGuess st.hiddenWord st).1.board.all (fun s => s.isRevealed) = true ∧
    (Hangman.handleGuess st.hiddenWord st).1.livesRemaining = st.livesRemaining ∧
    Hangman.gameIsOngoing (Hangman.handleGuess st.hiddenWord st).1 = false ∧
    (0 < st.livesRemaining →
      Hangman.gameOutcome (Hangman.handleGuess st.hiddenWord st).1 = Hangman.Outcome.Won) := by
  have key : (Hangman.handleGuess st.hiddenWord st).2 = Hangman.GuessOutcome.Hit ∧
      (Hangman.handleGuess st.hiddenWord st).1.board.all (fun s => s.isRevealed) = true ∧
      (Hangman.handleGuess st.hiddenWord st).1.livesRemaining = st.livesRemaining := by
    by_cases hl : ∃ c, st.hiddenWord.data = [c] ∧ 'a' ≤ c ∧ c ≤ 'z'
    · obtain ⟨c, hd, hc1, hc2⟩ := hl
      rw [hd] at hb
      have hlen1 : st.board.length = 1 := by
        have hc := congrArg List.length hb
        simpa using hc
      obtain ⟨s, hs⟩ := List.length_eq_one.mp hlen1
      have hletter : s.letter = c := by
        rw [hs] at hb
        simpa using hb
      rw [Hangman.handleGuess_of_letter _ c st hd hc1 hc2]
      have hcontains :
          Hangman.boardContainsLetter (Hangman.storeGuess st.hiddenWord st).board c = true := by
        rw [Hangman.storeGuess_board, hs]
        unfold Hangman.boardContainsLetter
        simp [hletter]
      unfold Hangman.processGuessedLetter
      rw [if_pos hcontains]
      refine ⟨rfl, ?_, rfl⟩
      show (Hangman.revealLetter c st.board).all _ = true
      rw [hs]
      unfold Hangman.revealLetter
      simp [hletter]
    · rw [Hangman.handleGuess_of_word _ _ hl]
      have heq : (st.hiddenWord == (Hangman.storeGuess st.hiddenWord st).hiddenWord) = true := by
        rw [Hangman.storeGuess_hiddenWord]
        exact beq_self_eq_true st.hiddenWord
      unfold Hangman.processGuessedWord
      rw [if_pos heq]
      exact ⟨rfl, revealWholeBoard_all _, rfl⟩
  refine ⟨key.1, key.2.1, key.2.2, ?_, ?_⟩
  · unfold Hangman.gameIsOngoing
    simp [key.2.1]
  · intro hpos
    unfold Hangman.gameOutcome
    rw [key.2.2, if_neg]
    simp only [beq_iff_eq]
    omega

/-- Witness for C3: guessing "cat" against the partially revealed "_ a _"
board with 3 lives (the spec's scenario: Hit, board fully revealed, outcome
Won). -/
theorem word_guess_equal_secret_wins_witness :
    (stCatMid.board.map Hangman.LetterSlot.letter = stCatMid.hiddenWord.data ∧
      0 < stCatMid.livesRemaining) ∧
    ((Hangman.handleGuess stCatMid.hiddenWord stCatMid).2 = Hangman.GuessOutcome.Hit ∧
    (Hangman.handleGuess stCatMid.hiddenWord stCatMid).1.board.all
      (fun s => s.isRevealed) = true ∧
    (Hangman.handleGuess stCatMid.hiddenWord stCatMid).1.livesRemaining
      = stCatMid.livesRemaining ∧
    Hangman.gameIsOngoing (Hangman.handleGuess stCatMid.hiddenWord stCatMid).1 = false ∧
    Hangman.gameOutcome (Hangman.handleGuess stCatMid.hiddenWord stCatMid).1
      = Hangman.Outcome.Won) := by
  have h := word_guess_equal_secret_wins stCatMid (by decide)
  exact ⟨⟨by decide, by decide⟩, h.1, h.2.1, h.2.2.1, h.2.2.2.1, h.2.2.2.2 (by decide)⟩

/-- C4: a guess already present in `guessesMade` is rejected before any
classification or state change: the prompt recursion simply re-prompts on
the remaining input, with the state passed through untouched. -/
theorem duplicate_guess_rejected (guess : String) (rest : List String)
    (st : Hangman.GameState) (h : st.guessesMade.contains guess = true) :
    Hangman.takeAndHandleGuess (guess :: rest) st = Hangman.takeAndHandleGuess rest st := by
  have hmem : guess ∈ st.guessesMade := by simpa using h
  simp [Hangman.takeAndHandleGuess, hmem]

/-- A session state in which "b" has already been guessed. -/
def stCatGuessedB : Hangman.GameState :=
  { hiddenWord := "cat", board := Hangman.wordToBoard "cat",
    livesRemaining := 10, guessesMade := ["b"] }

/-- Witness for C4: re-submitting "b" after it was already guessed. -/
theorem duplicate_guess_rejected_witness :
    stCatGuessedB.guessesMade.contains "b" = true ∧
    Hangman.takeAndHandleGuess ["b"] stCatGuessedB
      = Hangman.takeAndHandleGuess [] stCatGuessedB :=
  ⟨by decide, duplicate_guess_rejected "b" [] stCatGuessedB (by decide)⟩

/-- C5: a guess is routed to the letter path exactly when it has one
character and that character is a lowercase Latin letter; every other guess
— in particular a single digit or uppercase letter — is routed to the word
path. -/
theorem guess_classification (g : String) (st : Hangman.GameState) :
    (Hangman.isALowercaseLetter g = true ↔ ∃ c, g.data = [c] ∧ 'a' ≤ c ∧ c ≤ 'z') ∧
    (∀ c, g.data = [c] → 'a' ≤ c → c ≤ 'z' →
      Hangman.handleGuess g st = Hangman.processGuessedLetter c (Hangman.storeGuess g st)) ∧
    ((¬ ∃ c, g.data = [c] ∧ 'a' ≤ c ∧ c ≤ 'z') →
      Hangman.handleGuess g st = Hangman.processGuessedWord g (Hangman.storeGuess g st)) :=
  ⟨Hangman.isALowercaseLetter_iff g,
   fun c hd h1 h2 => Hangman.handleGuess_of_letter g c st hd h1 h2,
   fun h => Hangman.handleGuess_of_word g st h⟩

/-- Witness for C5: "a" goes through the letter path, the single uppercase
character "A" through the word path. -/
theorem guess_classification_witness :
    Hangman.handleGuess "a" stCat
      = Hangman.processGuessedLetter 'a' (Hangman.storeGuess "a" stCat) ∧
    Hangman.handleGuess "A" stCat
      = Hangman.processGuessedWord "A" (Hangman.storeGuess "A" stCat) :=
  ⟨(guess_classification "a" stCat).2.1 'a' rfl (by decide) (by decide),
   (guess_classification "A" stCat).2.2
     (fun h => absurd ((Hangman.isALowercaseLetter_iff "A").mpr h) (by decide))⟩

namespace Hangman

/-- Pointwise reveal-monotonicity between two boards of equal length: every
slot keeps its letter, and a reveal flag that was `true` stays `true` (a
flag may only move from `false` to `true`). -/
def boardStep : List LetterSlot → List LetterSlot → Bool
  | [], [] => true
  | a :: as, b :: bs =>
    (b.letter == a.letter) && (!a.isRevealed || b.isRevealed) && boardStep as bs
  | _, _ => false

/-- `boardStep` is reflexive. -/
theorem boardStep_refl (b : List LetterSlot) : boardStep b b = true := by
  induction b with
  | nil => rfl
  | cons x xs ih => simp [boardStep, ih]

/-- Mapping a letter-preserving, reveal-monotone function over a board is a
`boardStep`. -/
theorem boardStep_map (b : List LetterSlot) (f : LetterSlot → LetterSlot)
    (hf : ∀ s, (f s).letter = s.letter ∧ (s.isRevealed = true → (f s).isRevealed = true)) :
    boardStep b (b.map f) = true := by
  induction b with
  | nil => rfl
  | cons x xs ih =>
    simp only [List.map_cons, boardStep, Bool.and_eq_true, beq_iff_eq]
    refine ⟨⟨(hf x).1, ?_⟩, ih⟩
    cases hx : x.isRevealed
    · simp
    · simp [(hf x).2 hx]

/-- `revealLetter` only flips reveal flags from `false` to `true`, keeping
every letter. -/
theorem revealLetter_boardStep (c : Char) (b : List LetterSlot) :
    boardStep b (revealLetter c b) = true := by
  unfold revealLetter
  apply boardStep_map
  intro s
  constructor
  · by_cases h : s.letter == c <;> simp [h]
  · intro hrev
    by_cases h : s.letter == c <;> simp [h, hrev]

/-- `revealWholeBoard` only flips reveal flags from `false` to `true`. -/
theorem revealWholeBoard_boardStep (b : List LetterSlot) :
    boardStep b (revealWholeBoard b) = true := by
  unfold revealWholeBoard
  apply boardStep_map
  intro s
  exact ⟨rfl, fun _ => rfl⟩

/-- `processGuessedLetter` never unreveals a slot or changes a letter. -/
theorem processGuessedLetter_boardStep (c : Char) (st : GameState) :
    boardStep st.board (processGuessedLetter c st).1.board = true := by
  unfold processGuessedLetter
  split
  · exact revealLetter_boardStep c st.board
  · exact boardStep_refl st.board

/-- `processGuessedWord` never unreveals a slot or changes a letter. -/
theorem processGuessedWord_boardStep (w : String) (st : GameState) :
    boardStep st.board (processGuessedWord w st).1.board = true := by
  unfold processGuessedWord
  split
  · exact revealWholeBoard_boardStep st.board
  · exact boardStep_refl st.board

/-- `handleGuess` never unreveals a slot or changes a letter. -/
theorem handleGuess_boardStep (g : String) (st : GameState) :
    boardStep st.board (handleGuess g st).1.board = true := by
  unfold handleGuess
  split
  · split
    · exact processGuessedLetter_boardStep _ (storeGuess g st)
    · exact processGuessedWord_boardStep g (storeGuess g st)
  · exact processGuessedWord_boardStep g (storeGuess g st)

/-- Each `handleGuess` call leaves `livesRemaining` unchanged or decrements
it by exactly 1. -/
theorem handleGuess_lives (g : String) (st : GameState) :
    (handleGuess g st).1.livesRemaining = st.livesRemaining ∨
    (handleGuess g st).1.livesRemaining = st.livesRemaining - 1 := by
  unfold handleGuess
  split
  · split
    · unfold processGuessedLetter
      split
      · exact Or.inl rfl
      · exact Or.inr rfl
    · unfold processGuessedWord
      split
      · exact Or.inl rfl
      · exact Or.inr rfl
  · unfold processGuessedWord
    split
    · exact Or.inl rfl
    · exact Or.inr rfl

/-- The loop only runs a round while lives are positive. -/
theorem gameIsOngoing_lives (st : GameState) (h : gameIsOngoing st = true) :
    0 < st.livesRemaining := by
  unfold gameIsOngoing at h
  simp only [Bool.and_eq_true, decide_eq_true_eq] at h
  exact h.1

/-- A trace always starts with its initial state. -/
theorem runTrace_cons_exists (inputs : List String) (st : GameState) :
    ∃ t, runTrace inputs st = st :: t := by
  cases inputs with
  | nil => exact ⟨[], rfl⟩
  | cons g rest =>
    unfold runTrace
    split
    · split
      · exact ⟨_, rfl⟩
      · exact ⟨_, rfl⟩
    · exact ⟨[], rfl⟩

/-- Any relation that is reflexive and holds across each `handleGuess` call
holds between the consecutive states of a session trace. -/
theorem runTrace_chain (R : GameState → GameState → Prop)
    (hrefl : ∀ s, R s s) (hstep : ∀ g s, R s (handleGuess g s).1) :
    ∀ (inputs : List String) (st : GameState), List.Chain' R (runTrace inputs st) := by
  intro inputs
  induction inputs with
  | nil =>
    intro st
    simp [runTrace]
  | cons g rest ih =>
    intro st
    unfold runTrace
    split
    · split
      · obtain ⟨t, ht⟩ := runTrace_cons_exists rest st
        rw [ht]
        exact List.Chain'.cons (hrefl st) (ht ▸ ih st)
      · obtain ⟨t, ht⟩ := runTrace_cons_exists rest (handleGuess g st).1
        rw [ht]
        exact List.Chain'.cons (hstep g st) (ht ▸ ih _)
    · simp

/-- Starting from non-negative lives, every state the loop reaches still has
non-negative lives: a round only runs while lives are positive, and a round
removes at most one life. -/
theorem runTrace_lives_nonneg :
    ∀ (inputs : List String) (st : GameState), 0 ≤ st.livesRemaining →
      ∀ s ∈ runTrace inputs st, 0 ≤ s.livesRemaining := by
  intro inputs
  induction inputs with
  | nil =>
    intro st h s hs
    simp [runTrace] at hs
    rwa [hs]
  | cons g rest ih =>
    intro st h s hs
    unfold runTrace at hs
    by_cases hgo : gameIsOngoing st = true
    · rw [if_pos hgo] at hs
      have hpos : 0 < st.livesRemaining := gameIsOngoing_lives st hgo
      by_cases hdup : st.guessesMade.contains g = true
      · rw [if_pos hdup] at hs
        rcases List.mem_cons.mp hs with rfl | hs'
        · exact h
        · exact ih st h s hs'
      · rw [if_neg hdup] at hs
        rcases List.mem_cons.mp hs with rfl | hs'
        · exact h
        · have hnext : 0 ≤ (handleGuess g st).1.livesRemaining := by
            rcases handleGuess_lives g st with h1 | h1 <;> rw [h1] <;> omega
          exact ih _ hnext s hs'
    · rw [if_neg hgo] at hs
      rcases List.mem_singleton.mp hs with rfl
      exact h

end Hangman

/-- C6: over a session, `livesRemaining` never increases between consecutive
states of the game loop, and — starting from a non-negative count, as both
variants do (10 and 5) — it stays non-negative in every state the loop
reaches. -/
theorem lives_monotone_nonnegative (inputs : List String) (st : Hangman.GameState)
    (h : 0 ≤ st.livesRemaining) :
    (Hangman.runTrace inputs st).all (fun s => decide (0 ≤ s.livesRemaining)) = true ∧
    List.Chain' (fun a b => b.livesRemaining ≤ a.livesRemaining)
      (Hangman.runTrace inputs st) := by
  constructor
  · rw [List.all_eq_true]
    intro s hs
    exact decide_eq_true (Hangman.runTrace_lives_nonneg inputs st h s hs)
  · apply Hangman.runTrace_chain
    · intro s
      exact le_refl _
    · intro g s
      rcases Hangman.handleGuess_lives g s with h1 | h1 <;> rw [h1] <;> omega

/-- Witness for C6: the session on secret "cat" with inputs "z" then "q". -/
theorem lives_monotone_nonnegative_witness :
    0 ≤ stCat.livesRemaining ∧
    ((Hangman.runTrace ["z", "q"] stCat).all (fun s => decide (0 ≤ s.livesRemaining)) = true ∧
    List.Chain' (fun a b => b.livesRemaining ≤ a.livesRemaining)
      (Hangman.runTrace ["z", "q"] stCat)) :=
  ⟨by decide, lives_monotone_nonnegative ["z", "q"] stCat (by decide)⟩

/-- C9: revelation is monotone.  `revealLetter`, `revealWholeBoard` and
`handleGuess` keep every slot's letter and only ever move a reveal flag from
`false` to `true`, and the same holds between consecutive states of any
session trace, so a revealed slot never becomes unrevealed. -/
theorem reveal_monotone (c : Char) (b : List Hangman.LetterSlot) (g : String)
    (st : Hangman.GameState) (inputs : List String) :
    Hangman.boardStep b (Hangman.revealLetter c b) = true ∧
    Hangman.boardStep b (Hangman.revealWholeBoard b) = true ∧
    Hangman.boardStep st.board (Hangman.handleGuess g st).1.board = true ∧
    List.Chain' (fun a a' => Hangman.boardStep a.board a'.board = true)
      (Hangman.runTrace inputs st) :=
  ⟨Hangman.revealLetter_boardStep c b,
   Hangman.revealWholeBoard_boardStep b,
   Hangman.handleGuess_boardStep g st,
   Hangman.runTrace_chain _ (fun s => Hangman.boardStep_refl s.board)
     (fun g' s => Hangman.handleGuess_boardStep g' s) inputs st⟩

/-- In the `index.ts` variant the freshly built board has only
one-character slot letters (`word.split("")`). -/
theorem index_mkBoard_letter_length (w : String) :
    (Index.mkBoard w).all (fun s => s.letter.length == 1) = true := by
  unfold Index.mkBoard
  induction w.data with
  | nil => rfl
  | cons x xs ih =>
    simp only [List.map_cons, List.all_cons, ih, Bool.and_true]
    rfl

/-- `index.ts` never changes a slot's letter, so one-character slot letters
are an invariant of every reachable session state. -/
theorem index_handleGuess_letter_length (g : String) (st : Index.GameState)
    (h : st.board.all (fun s => s.letter.length == 1) = true) :
    (Index.handleGuess g st).board.all (fun s => s.letter.length == 1) = true := by
  unfold Index.handleGuess
  split
  · show (Index.revealLetter g st.board).all _ = true
    unfold Index.revealLetter
    rw [List.all_eq_true] at h ⊢
    intro s hs
    obtain ⟨t, ht, rfl⟩ := List.mem_map.mp hs
    by_cases hbe : (t.letter == g) = true
    · simpa [hbe] using h t ht
    · simpa [hbe] using h t ht
  · exact h

/-- C10: in the `index.ts` variant every guess of length at least 2 —
including the hidden word itself, at any point of the session — misses:
since every slot letter is a one-character string (true of the start board
and preserved, see `index_mkBoard_letter_length` and
`index_handleGuess_letter_length`), `boardContainsLetter` is `false`, so a
life is lost and no slot is revealed; a whole-word guess can never win. -/
theorem index_long_guess_always_misses (g : String) (st : Index.GameState)
    (hlen : st.board.all (fun s => s.letter.length == 1) = true)
    (hg : 2 ≤ g.length) :
    (Index.handleGuess g st).board = st.board ∧
    (Index.handleGuess g st).livesRemaining = st.livesRemaining - 1 := by
  have habsent : Index.boardContainsLetter st.board g = false := by
    unfold Index.boardContainsLetter
    rw [List.all_eq_true] at hlen
    simp only [List.any_eq_false]
    intro s hs hbe
    have heq : s.letter = g := by simpa using hbe
    have h1 : s.letter.length = 1 := by simpa using hlen s hs
    rw [heq] at h1
    omega
  unfold Index.handleGuess
  rw [if_neg (by rw [habsent]; exact Bool.false_ne_true)]
  exact ⟨rfl, rfl⟩

/-- A mid-session state of the `index.ts` game: "a" and "p" already guessed
and revealed on the "apple" board. -/
def stAppleMid : Index.GameState :=
  { board := [{ letter := "a", isRevealed := true },
              { letter := "p", isRevealed := true },
              { letter := "p", isRevealed := true },
              { letter := "l", isRevealed := false },
              { letter := "e", isRevealed := false }],
    livesRemaining := 5, guessesMade := ["a", "p"] }

/-- Witness for C10: guessing the hidden word "apple" itself mid-session,
with "a" and "p" already revealed, still loses a life and reveals
nothing. -/
theorem index_long_guess_always_misses_witness :
    (stAppleMid.board.all (fun s => s.letter.length == 1) = true ∧
      2 ≤ ("apple" : String).length) ∧
    ((Index.handleGuess "apple" stAppleMid).board = stAppleMid.board ∧
    (Index.handleGuess "apple" stAppleMid).livesRemaining
      = stAppleMid.livesRemaining - 1) :=
  ⟨⟨by decide, by decide⟩,
    index_long_guess_always_misses "apple" stAppleMid (by decide) (by decide)⟩
